import Mathlib

/-!
Verification development for the audio-synchronized subtitle timing engine of the
redditstories repository (src/subtitle.rs, src/audio.rs, src/main.rs).

Modelling conventions:
- `f64` arithmetic is embedded as exact real arithmetic over `ℝ`.
- Rust's `\w` character class is modelled for ASCII input (letters, digits,
  underscore); the repository feeds ASCII reddit text through this path.
- `i16` samples are embedded as `ℤ` with mathematical absolute value (the
  `i16::MIN` wrap-around of `abs` in release builds is outside the model).
- Recursions that the Rust side drives by an advancing byte cursor
  (regex `find_iter`, `split_whitespace`) are given a fuel argument equal to
  the input length; every step consumes at least one character, so the fuel
  never runs out on the initial call.
-/

namespace RedditStories

/-! ## Tokenizer: regex `(\w[\w'-]*)|([,.!?])` from subtitle.rs line 32 / main.rs line 138.
A match is either a word (a `\w` character followed by a maximal run of
`\w`, apostrophe or hyphen characters) or a single one of `, . ! ?`.
Note the character class does not contain `;`: a semicolon never becomes a
token (the `";"` match arm at subtitle.rs line 60 is unreachable). -/

def isWordChar (c : Char) : Bool :=
  c.isAlpha || c.isDigit || c = '_'

def isWordCont (c : Char) : Bool :=
  isWordChar c || c = '\'' || c = '-'

inductive Token : Type where
  | word (cs : List Char)
  | comma
  | sentenceEnd
  deriving DecidableEq

def tokenizeFuel : ℕ → List Char → List Token
  | 0, _ => []
  | _ + 1, [] => []
  | fuel + 1, c :: rest =>
    if isWordChar c then
      Token.word (c :: rest.takeWhile isWordCont) :: tokenizeFuel fuel (rest.dropWhile isWordCont)
    else if c = ',' then
      Token.comma :: tokenizeFuel fuel rest
    else if c = '.' || c = '!' || c = '?' then
      Token.sentenceEnd :: tokenizeFuel fuel rest
    else
      tokenizeFuel fuel rest

def tokenize (l : List Char) : List Token :=
  tokenizeFuel l.length l

/-- Modelled from the spec (amended §4.2): a relational left-to-right scanner
description of tokenization, used to compare the source tokenizer against the
spec's words. A word starts with a word character and extends over a maximal
run of word characters, apostrophes and hyphens; `,` is a Comma pause;
`.`, `!`, `?` are SentenceEnd pauses; every other character (including `;`)
emits no token. -/
inductive TokenizesTo : List Char → List Token → Prop where
  | nil : TokenizesTo [] []
  | word (c : Char) (run rest : List Char) (ts : List Token)
      (hc : isWordChar c = true)
      (hrun : ∀ d ∈ run, isWordCont d = true)
      (hmax : ∀ d ∈ rest.head?, isWordCont d = false)
      (htl : TokenizesTo rest ts) :
      TokenizesTo (c :: (run ++ rest)) (Token.word (c :: run) :: ts)
  | comma (rest : List Char) (ts : List Token)
      (htl : TokenizesTo rest ts) :
      TokenizesTo (',' :: rest) (Token.comma :: ts)
  | sentenceEnd (c : Char) (rest : List Char) (ts : List Token)
      (hc : c = '.' ∨ c = '!' ∨ c = '?')
      (htl : TokenizesTo rest ts) :
      TokenizesTo (c :: rest) (Token.sentenceEnd :: ts)
  | skip (c : Char) (rest : List Char) (ts : List Token)
      (hw : isWordChar c = false)
      (hcm : ¬ c = ',') (hp : ¬ c = '.') (hb : ¬ c = '!') (hq : ¬ c = '?')
      (htl : TokenizesTo rest ts) :
      TokenizesTo (c :: rest) ts

/-! ## AudioAnalyzer: audio.rs -/

/-- The sample loop of `detect_leading_silence` (audio.rs lines 27-37):
`acc` is the running count of consecutive sub-threshold samples; a loud
sample stops the scan once the count has reached `minLen`, otherwise it
resets the count to zero. -/
def detectAux (thr : ℤ) (minLen : ℕ) : List ℤ → ℕ → ℕ
  | [], acc => acc
  | s :: rest, acc =>
    if |s| < thr then detectAux thr minLen rest (acc + 1)
    else if minLen ≤ acc then acc
    else detectAux thr minLen rest 0

def silentSample (thr : ℤ) (s : ℤ) : Bool :=
  decide (|s| < thr)

/-- Modelled from the spec (amended §4.1): the length of the first maximal run
of sub-threshold samples that reaches `minLen` and is followed by a loud
sample; if no run stops the scan, the length of the trailing run of
sub-threshold samples. Fuel decreases by one per skipped loud sample. -/
def specLeadingRunFuel (thr : ℤ) (minLen : ℕ) : ℕ → List ℤ → ℕ
  | 0, l => (l.takeWhile (silentSample thr)).length
  | fuel + 1, l =>
    let k := (l.takeWhile (silentSample thr)).length
    match l.dropWhile (silentSample thr) with
    | [] => k
    | _ :: r2 => if minLen ≤ k then k else specLeadingRunFuel thr minLen fuel r2

def specLeadingRun (thr : ℤ) (minLen : ℕ) (l : List ℤ) : ℕ :=
  specLeadingRunFuel thr minLen l.length l

/-- audio.rs lines 19-40: final silent-run count divided by the sample rate.
Note the count is over interleaved samples, not frames: the channel count is
not divided out. -/
noncomputable def detect_leading_silence (samples : List ℤ) (thr : ℤ)
    (minLen sampleRate : ℕ) : ℝ :=
  (detectAux thr minLen samples 0 : ℝ) / (sampleRate : ℝ)

/-- audio.rs lines 51-58: `frames = samples / channels; duration = frames / rate`,
all in `f64` division. -/
noncomputable def wav_duration_seconds (numSamples channels sampleRate : ℕ) : ℝ :=
  ((numSamples : ℝ) / (channels : ℝ)) / (sampleRate : ℝ)

/-! ## TimingAllocator: subtitle.rs `build_srt_entries` (lines 22-81) -/

abbrev Cue := ℝ × ℝ × String

noncomputable def COMMA_PAUSE : ℝ := 0.2

noncomputable def SENTENCE_END_PAUSE : ℝ := 0.4

/-- subtitle.rs lines 39-47: total fixed pause time of a token list. -/
noncomputable def pauseTime : List Token → ℝ
  | [] => 0
  | Token.comma :: ts => COMMA_PAUSE + pauseTime ts
  | Token.sentenceEnd :: ts => SENTENCE_END_PAUSE + pauseTime ts
  | Token.word _ :: ts => pauseTime ts

/-- The `word_elements` vector (subtitle.rs lines 40-47): the word tokens'
character lists in order. -/
def wordTexts : List Token → List (List Char)
  | [] => []
  | Token.word cs :: ts => cs :: wordTexts ts
  | _ :: ts => wordTexts ts

/-- subtitle.rs line 50: sum of per-word weights, parametrised by the weight
function `w` (the code uses `n ^ alpha`). -/
noncomputable def totalWeight (w : ℕ → ℝ) (ts : List Token) : ℝ :=
  ((wordTexts ts).map fun cs => w cs.length).sum

/-- subtitle.rs lines 51-77: the token walk. Every token emits exactly one
cue: pauses emit a `" "` cue spanning the fixed pause, a word emits a cue
spanning its weighted share of `avail`. Returns the cues together with the
final cursor (the value of `current_time_in_chunk` after the loop). -/
noncomputable def emit (w : ℕ → ℝ) (avail tw : ℝ) : ℝ → List Token → List Cue × ℝ
  | cur, [] => ([], cur)
  | cur, Token.comma :: ts =>
    let rest := emit w avail tw (cur + COMMA_PAUSE) ts
    ((cur, cur + COMMA_PAUSE, " ") :: rest.1, rest.2)
  | cur, Token.sentenceEnd :: ts =>
    let rest := emit w avail tw (cur + SENTENCE_END_PAUSE) ts
    ((cur, cur + SENTENCE_END_PAUSE, " ") :: rest.1, rest.2)
  | cur, Token.word cs :: ts =>
    let d := if 0 < tw then avail * w cs.length / tw else 0
    let rest := emit w avail tw (cur + d) ts
    ((cur, cur + d, String.mk cs) :: rest.1, rest.2)

/-- One (audio segment, text) pair as seen by `build_srt_entries` after the
audio reads: total duration, detected leading silence, chunk text. -/
structure SegIn : Type where
  dur : ℝ
  leading : ℝ
  text : String

/-- subtitle.rs loop body (lines 25-78) for one segment: returns the cues
pushed for this segment and the new value of `cumulative_seconds`. -/
noncomputable def segEntries (w : ℕ → ℝ) (cum : ℝ) (s : SegIn) : List Cue × ℝ :=
  let start := cum + s.leading
  let stop := start + (s.dur - s.leading)
  let toks := tokenize s.text.toList
  if toks = [] then ([(start, stop, s.text)], stop)
  else
    let pause := pauseTime toks
    let avail := max (s.dur - s.leading - pause) 0
    let tw := totalWeight w toks
    ((emit w avail tw start toks).1, stop)

/-- subtitle.rs line 49-50: `alpha = 0.75`, weight of a word of `n` characters. -/
noncomputable def alphaWeight (n : ℕ) : ℝ :=
  (n : ℝ) ^ (0.75 : ℝ)

noncomputable def buildFrom (w : ℕ → ℝ) (cum : ℝ) : List SegIn → List Cue
  | [] => []
  | s :: rest => (segEntries w cum s).1 ++ buildFrom w (segEntries w cum s).2 rest

/-- subtitle.rs `build_srt_entries`, after the per-segment audio reads have
been resolved into `SegIn` values. -/
noncomputable def build_srt_entries (segs : List SegIn) : List Cue :=
  buildFrom alphaWeight 0 segs

/-- The value of `cumulative_seconds` after processing a list of segments. -/
noncomputable def runClock (w : ℕ → ℝ) (cum : ℝ) : List SegIn → ℝ
  | [] => cum
  | s :: rest => runClock w (segEntries w cum s).2 rest

/-- Hypotheses under which the spec's document invariants hold of the code:
nonnegative leading silence, and the leading silence plus the fixed pause
budget fits inside the segment duration. -/
def SegOK (s : SegIn) : Prop :=
  0 ≤ s.leading ∧
  (tokenize s.text.toList = [] → s.leading ≤ s.dur) ∧
  (tokenize s.text.toList ≠ [] →
    s.leading + pauseTime (tokenize s.text.toList) ≤ s.dur)

/-! ## The main.rs inline allocator (lines 124-196): the default-policy
variant. Differences from subtitle.rs: leading silence is not used at all,
`alpha = 0.5`, and punctuation advances the clock without emitting a cue. -/

/-- main.rs lines 164-168: `alpha = 0.5`. -/
noncomputable def sqrtWeight (n : ℕ) : ℝ :=
  (n : ℝ) ^ (0.5 : ℝ)

/-- main.rs lines 170-193: the token walk; pauses advance
`current_time_in_chunk` and push nothing. -/
noncomputable def mainEmit (avail tw : ℝ) : ℝ → List Token → List Cue × ℝ
  | cur, [] => ([], cur)
  | cur, Token.comma :: ts => mainEmit avail tw (cur + COMMA_PAUSE) ts
  | cur, Token.sentenceEnd :: ts => mainEmit avail tw (cur + SENTENCE_END_PAUSE) ts
  | cur, Token.word cs :: ts =>
    let d := if 0 < tw then avail * sqrtWeight cs.length / tw else 0
    let rest := mainEmit avail tw (cur + d) ts
    ((cur, cur + d, String.mk cs) :: rest.1, rest.2)

/-- main.rs loop body (lines 125-196) for one segment. -/
noncomputable def mainSegEntries (cum dur : ℝ) (text : String) : List Cue × ℝ :=
  let start := cum
  let stop := cum + dur
  let toks := tokenize text.toList
  if toks = [] then ([(start, stop, text)], stop)
  else
    let pause := pauseTime toks
    let avail := max (dur - pause) 0
    let tw := totalWeight sqrtWeight toks
    ((mainEmit avail tw start toks).1, stop)

/-- What a token contributes as cue text in the subtitle.rs walk. -/
def tokenText : Token → String
  | Token.word cs => String.mk cs
  | Token.comma => " "
  | Token.sentenceEnd => " "

/-- The cue text a token contributes in the main.rs walk, if any. -/
def wordTextOpt : Token → Option String
  | Token.word cs => some (String.mk cs)
  | _ => none

/-! ## Fallible wrapper: the audio reads of subtitle.rs lines 26-27.
`durRes = none` models `wav_duration_seconds` failing (the `?` aborts the
run); `silRes = none` models `detect_leading_silence` failing (the
`.unwrap_or(0.0)` substitutes zero). -/

structure SegRead : Type where
  durRes : Option ℝ
  silRes : Option ℝ
  text : String

noncomputable def toSegIn (s : SegRead) : SegIn :=
  ⟨s.durRes.getD 0, s.silRes.getD 0, s.text⟩

noncomputable def buildFromE (w : ℕ → ℝ) (cum : ℝ) : List SegRead → Option (List Cue)
  | [] => some []
  | s :: rest =>
    match s.durRes with
    | none => none
    | some dur =>
      let leading := s.silRes.getD 0
      let p := segEntries w cum ⟨dur, leading, s.text⟩
      (buildFromE w p.2 rest).map fun cs => p.1 ++ cs

noncomputable def build_srt_entriesE (segs : List SegRead) : Option (List Cue) :=
  buildFromE alphaWeight 0 segs

/-! ## SubtitleFormatter: subtitle.rs lines 92-150 -/

/-- Rust `str::split_whitespace`: maximal runs of non-whitespace characters. -/
def splitWsFuel : ℕ → List Char → List (List Char)
  | 0, _ => []
  | _ + 1, [] => []
  | fuel + 1, c :: rest =>
    if c.isWhitespace then splitWsFuel fuel rest
    else
      (c :: rest.takeWhile fun d => !d.isWhitespace) ::
        splitWsFuel fuel (rest.dropWhile fun d => !d.isWhitespace)

def splitWs (l : List Char) : List (List Char) :=
  splitWsFuel l.length l

/-- Loop body of `wrap_text` (subtitle.rs lines 134-145); the state is
(finished lines, current line). Lengths are byte lengths in Rust; the model
counts characters, which agrees on ASCII. -/
def wrapStep (width : ℕ) (st : List (List Char) × List Char) (word : List Char) :
    List (List Char) × List Char :=
  if st.2.length + word.length + 1 > width ∧ st.2 ≠ [] then
    (st.1 ++ [st.2], word)
  else
    (st.1, if st.2 = [] then word else st.2 ++ ' ' :: word)

/-- subtitle.rs lines 131-150. -/
def wrap_text (s : String) (width : ℕ) : List String :=
  let res := (splitWs s.toList).foldl (wrapStep width) ([], [])
  ((if res.2 = [] then res.1 else res.1 ++ [res.2]).map fun cs => String.mk cs)

def pad2 (n : ℕ) : String :=
  if n < 10 then "0" ++ toString n else toString n

def pad3 (n : ℕ) : String :=
  if n < 10 then "00" ++ toString n
  else if n < 100 then "0" ++ toString n
  else toString n

/-- subtitle.rs lines 112-121. `round` agrees with Rust `f64::round` on
nonnegative input, and `Int.toNat` matches the saturating `as u64` cast. -/
noncomputable def format_srt_time (seconds : ℝ) : String :=
  let total_ms := (round (seconds * 1000) : ℤ).toNat
  let ms := total_ms % 1000
  let total_sec := total_ms / 1000
  let s := total_sec % 60
  let total_min := total_sec / 60
  let m := total_min % 60
  let h := total_min / 60
  pad2 h ++ ":" ++ pad2 m ++ ":" ++ pad2 s ++ "," ++ pad3 ms

/-- The block `write_srt` (subtitle.rs lines 94-101) prints for the cue at
0-based position `i`: index line, timestamp line, wrapped text lines, blank
separator line. -/
noncomputable def srtBlock (i : ℕ) (c : Cue) : List String :=
  [toString (i + 1), format_srt_time c.1 ++ " --> " ++ format_srt_time c.2.1] ++
    wrap_text c.2.2 80 ++ [""]

/-- subtitle.rs `write_srt` as the list of lines it writes. -/
noncomputable def write_srt (entries : List Cue) : List String :=
  (entries.enum.map fun p => srtBlock p.1 p.2).flatten

/-! ## Helper lemmas -/

theorem length_dropWhile_le (p : α → Bool) (l : List α) :
    (l.dropWhile p).length ≤ l.length := by
  induction l with
  | nil => simp
  | cons a l ih =>
    by_cases h : p a
    · simpa [List.dropWhile_cons, h] using Nat.le_succ_of_le ih
    · simp [List.dropWhile_cons, h]

theorem head?_dropWhile_false (p : α → Bool) (l : List α) (a : α)
    (h : a ∈ (l.dropWhile p).head?) : p a = false := by
  induction l with
  | nil => simp at h
  | cons b l ih =>
    cases hb : p b with
    | true => rw [List.dropWhile_cons_of_pos hb] at h; exact ih h
    | false =>
      rw [List.dropWhile_cons_of_neg (by simp [hb])] at h
      simp only [List.head?_cons, Option.mem_def, Option.some.injEq] at h
      subst h
      exact hb

/-! ## Tokenizer lemmas -/

theorem tokenizeFuel_sound :
    ∀ fuel (l : List Char), l.length ≤ fuel → TokenizesTo l (tokenizeFuel fuel l) := by
  intro fuel
  induction fuel with
  | zero =>
    intro l hl
    have hnil : l = [] := List.length_eq_zero.mp (Nat.le_zero.mp hl)
    subst hnil
    exact TokenizesTo.nil
  | succ fuel ih =>
    intro l hl
    match l with
    | [] => exact TokenizesTo.nil
    | c :: rest =>
      have hrestlen : rest.length ≤ fuel := by
        simpa using Nat.le_of_succ_le_succ hl
      simp only [tokenizeFuel]
      by_cases hw : isWordChar c
      · rw [if_pos hw]
        have h := TokenizesTo.word c (rest.takeWhile isWordCont)
          (rest.dropWhile isWordCont) (tokenizeFuel fuel (rest.dropWhile isWordCont)) hw
          (fun d hd => List.mem_takeWhile_imp hd)
          (fun d hd => head?_dropWhile_false _ _ _ hd)
          (ih _ (le_trans (length_dropWhile_le _ _) hrestlen))
        rwa [List.takeWhile_append_dropWhile] at h
      · rw [if_neg hw]
        by_cases hcm : c = ','
        · subst hcm
          simp only [if_pos rfl]
          exact TokenizesTo.comma _ _ (ih _ hrestlen)
        · rw [if_neg hcm]
          by_cases hse : (c = '.' || c = '!' || c = '?' : Bool)
          · rw [if_pos hse]
            refine TokenizesTo.sentenceEnd c rest _ ?_ (ih _ hrestlen)
            simpa [or_assoc] using hse
          · rw [if_neg hse]
            simp only [Bool.or_eq_true, decide_eq_true_eq, not_or] at hse
            exact TokenizesTo.skip c rest _ (by simpa using hw) hcm hse.1.1 hse.1.2 hse.2
              (ih _ hrestlen)

theorem tokenizeFuel_word_ne_nil :
    ∀ fuel (l : List Char) (cs : List Char),
      Token.word cs ∈ tokenizeFuel fuel l → cs ≠ [] := by
  intro fuel
  induction fuel with
  | zero => intro l cs h; simp [tokenizeFuel] at h
  | succ fuel ih =>
    intro l cs h
    match l with
    | [] => simp [tokenizeFuel] at h
    | c :: rest =>
      simp only [tokenizeFuel] at h
      by_cases hw : isWordChar c
      · rw [if_pos hw] at h
        rcases List.mem_cons.mp h with heq | hmem
        · cases heq
          simp
        · exact ih _ _ hmem
      · rw [if_neg hw] at h
        by_cases hcm : c = ','
        · rw [if_pos hcm] at h
          rcases List.mem_cons.mp h with heq | hmem
          · cases heq
          · exact ih _ _ hmem
        · rw [if_neg hcm] at h
          by_cases hse : (c = '.' || c = '!' || c = '?' : Bool)
          · rw [if_pos hse] at h
            rcases List.mem_cons.mp h with heq | hmem
            · cases heq
            · exact ih _ _ hmem
          · rw [if_neg hse] at h
            exact ih _ _ h

theorem tokenize_word_ne_nil (l : List Char) (cs : List Char)
    (h : Token.word cs ∈ tokenize l) : cs ≠ [] :=
  tokenizeFuel_word_ne_nil _ _ _ h

/-! ## Claim C6 -/

/-- Claim C6 (counterexample): the claim says a standalone `;` yields a
SentenceEnd pause, but the source regex `(\w[\w'-]*)|([,.!?])` does not match
`;`, so `tokenize ";"` yields no token at all. -/
theorem tokenize_semicolon_counterexample :
    tokenize (String.toList ";") = [] ∧
      tokenize (String.toList ";") ≠ [Token.sentenceEnd] := by
  constructor
  · decide
  · decide

/-- Claim C6 (amended): tokenization scans left to right producing one Word
per maximal run that starts with a letter/digit/underscore and continues over
letters/digits/underscores/apostrophes/hyphens, a Comma pause for each `,`,
a SentenceEnd pause for each of `.`, `!`, `?`, and no token for any other
character — including `;`, which is skipped. The `tokenize "Hello, world!"`
example holds as stated. -/
theorem tokenize_amended :
    (∀ l : List Char, TokenizesTo l (tokenize l)) ∧
      tokenize (String.toList "Hello, world!") =
        [Token.word (String.toList "Hello"), Token.comma,
          Token.word (String.toList "world"), Token.sentenceEnd] := by
  constructor
  · exact fun l => tokenizeFuel_sound l.length l le_rfl
  · decide

/-! ## AudioAnalyzer lemmas -/

theorem detectAux_all_silent (thr : ℤ) (minLen : ℕ) :
    ∀ (l : List ℤ) (acc : ℕ), (∀ s ∈ l, |s| < thr) →
      detectAux thr minLen l acc = acc + l.length := by
  intro l
  induction l with
  | nil => intro acc _; simp [detectAux]
  | cons a l ih =>
    intro acc h
    simp only [detectAux]
    rw [if_pos (h a (List.mem_cons_self a l))]
    rw [ih _ fun s hs => h s (List.mem_cons_of_mem a hs)]
    simp only [List.length_cons]
    omega

/-- Unfolding of the silence loop one maximal silent run at a time. -/
theorem detectAux_run (thr : ℤ) (minLen : ℕ) :
    ∀ (l : List ℤ) (acc : ℕ),
      detectAux thr minLen l acc =
        if l.dropWhile (silentSample thr) = [] then
          (l.takeWhile (silentSample thr)).length + acc
        else if minLen ≤ (l.takeWhile (silentSample thr)).length + acc then
          (l.takeWhile (silentSample thr)).length + acc
        else detectAux thr minLen ((l.dropWhile (silentSample thr)).tail) 0 := by
  intro l
  induction l with
  | nil => intro acc; simp [detectAux]
  | cons s rest ih =>
    intro acc
    by_cases hs : |s| < thr
    · have hb : silentSample thr s = true := by simp [silentSample, hs]
      rw [List.dropWhile_cons_of_pos hb, List.takeWhile_cons_of_pos hb]
      simp only [detectAux, if_pos hs, List.length_cons]
      rw [ih (acc + 1)]
      have harith : (rest.takeWhile (silentSample thr)).length + (acc + 1) =
          (rest.takeWhile (silentSample thr)).length + 1 + acc := by omega
      rw [harith]
    · have hb : ¬ silentSample thr s = true := by simp [silentSample, hs]
      rw [List.dropWhile_cons_of_neg hb, List.takeWhile_cons_of_neg hb]
      rw [if_neg (List.cons_ne_nil s rest)]
      simp only [List.length_nil, Nat.zero_add, List.tail_cons]
      simp only [detectAux, if_neg hs]

theorem detectAux_eq_specLeadingRunFuel (thr : ℤ) (minLen : ℕ) :
    ∀ (fuel : ℕ) (l : List ℤ), l.length ≤ fuel →
      detectAux thr minLen l 0 = specLeadingRunFuel thr minLen fuel l := by
  intro fuel
  induction fuel with
  | zero =>
    intro l hl
    have hnil : l = [] := List.length_eq_zero.mp (Nat.le_zero.mp hl)
    subst hnil
    simp [detectAux, specLeadingRunFuel]
  | succ fuel ih =>
    intro l hl
    rw [detectAux_run]
    simp only [specLeadingRunFuel]
    cases hdrop : l.dropWhile (silentSample thr) with
    | nil => simp [hdrop]
    | cons x r2 =>
      rw [if_neg (by simp [hdrop])]
      simp only [hdrop]
      have hr2 : r2.length ≤ fuel := by
        have hle := length_dropWhile_le (silentSample thr) l
        rw [hdrop] at hle
        simp only [List.length_cons] at hle
        omega
      by_cases hmin : minLen ≤ (l.takeWhile (silentSample thr)).length
      · simp [hmin]
      · simp only [Nat.add_zero, if_neg hmin, List.tail_cons]
        exact ih r2 hr2

/-! ## Claim C4 -/

/-- Claim C4 (counterexample): for a fully silent two-channel stream the
detector returns twice the duration: the silent-sample count is divided only
by the sample rate, never by the channel count. Four zero samples at 2
channels and 8000 Hz last 0.00025 s, but the detector reports 0.0005 s. -/
theorem detect_silence_stereo_counterexample :
    (∀ s ∈ ([0, 0, 0, 0] : List ℤ), |s| < 500) ∧
      detect_leading_silence [0, 0, 0, 0] 500 2000 8000 ≠
        wav_duration_seconds ([0, 0, 0, 0] : List ℤ).length 2 8000 := by
  constructor
  · decide
  · have h : detectAux 500 2000 [0, 0, 0, 0] 0 = 4 := by decide
    simp only [detect_leading_silence, wav_duration_seconds, h, List.length_cons,
      List.length_nil]
    norm_num

/-- Claim C4 (amended): for an entirely silent stream the detector returns
the channel count times the duration computed by `wav_duration_seconds`
(the silent-sample count equals the interleaved sample count and is divided
by the rate only); the two agree exactly when the file is mono. -/
theorem detect_silence_all_silent_amended (samples : List ℤ) (thr : ℤ)
    (minLen sampleRate channels : ℕ)
    (hsil : ∀ s ∈ samples, |s| < thr) (hch : 0 < channels) :
    detect_leading_silence samples thr minLen sampleRate =
      (channels : ℝ) * wav_duration_seconds samples.length channels sampleRate ∧
      (channels = 1 →
        detect_leading_silence samples thr minLen sampleRate =
          wav_duration_seconds samples.length channels sampleRate) := by
  have hc : (channels : ℝ) ≠ 0 := Nat.cast_ne_zero.mpr hch.ne'
  have hmain : detect_leading_silence samples thr minLen sampleRate =
      (channels : ℝ) * wav_duration_seconds samples.length channels sampleRate := by
    simp only [detect_leading_silence, wav_duration_seconds,
      detectAux_all_silent thr minLen samples 0 hsil, Nat.zero_add]
    rw [div_div, eq_comm, mul_div_assoc']
    exact mul_div_mul_left _ _ hc
  exact ⟨hmain, fun h1 => by simpa [h1] using hmain⟩

/-- Witness for C4 (amended) at a concrete mono input. -/
theorem detect_silence_all_silent_witness :
    (∀ s ∈ ([0, 0] : List ℤ), |s| < 500) ∧ 0 < 1 ∧
      detect_leading_silence [0, 0] 500 2000 8000 =
        (1 : ℝ) * wav_duration_seconds ([0, 0] : List ℤ).length 1 8000 :=
  ⟨by decide, by decide,
    by simpa using
      (detect_silence_all_silent_amended [0, 0] 500 2000 8000 1 (by decide) (by decide)).1⟩

/-! ## Claim C5 -/

/-- Claim C5 (counterexample): a stream whose first sample is non-silent can
still report nonzero leading silence — the loop resets the counter on a loud
sample and keeps scanning, so a later (here trailing) silent run is returned. -/
theorem detect_silence_not_leading_counterexample :
    ¬ |(1000 : ℤ)| < 500 ∧
      detect_leading_silence [1000, 0, 0] 500 2 8000 ≠ 0 := by
  constructor
  · decide
  · have h : detectAux 500 2 [1000, 0, 0] 0 = 2 := by decide
    simp only [detect_leading_silence, h]
    norm_num

/-- Claim C5 (amended): the detector returns `runLen / sampleRate` where
`runLen` is the length of the first maximal run of sub-threshold samples that
reaches `minRunLength` and is followed by a non-silent sample, or, if the scan
reaches end-of-stream, the length of the trailing run of sub-threshold
samples; the run is not in general the one at the start of the stream. -/
theorem detect_leading_silence_amended (samples : List ℤ) (thr : ℤ)
    (minLen sampleRate : ℕ) :
    detect_leading_silence samples thr minLen sampleRate =
      (specLeadingRun thr minLen samples : ℝ) / (sampleRate : ℝ) := by
  unfold detect_leading_silence specLeadingRun
  rw [detectAux_eq_specLeadingRunFuel thr minLen samples.length samples le_rfl]

/-! ## TimingAllocator lemmas -/

theorem pauseTime_nonneg : ∀ ts : List Token, 0 ≤ pauseTime ts := by
  intro ts
  induction ts with
  | nil => simp [pauseTime]
  | cons t ts ih =>
    cases t <;> simp only [pauseTime, COMMA_PAUSE, SENTENCE_END_PAUSE] <;> norm_num <;>
      linarith

theorem mem_wordTexts_of_mem :
    ∀ (ts : List Token) (cs : List Char), Token.word cs ∈ ts → cs ∈ wordTexts ts := by
  intro ts
  induction ts with
  | nil => intro cs h; simp at h
  | cons t ts ih =>
    intro cs h
    rcases List.mem_cons.mp h with heq | hmem
    · cases heq; simp [wordTexts]
    · cases t <;> simp only [wordTexts] <;>
        first
          | exact List.mem_cons_of_mem _ (ih cs hmem)
          | exact ih cs hmem

theorem totalWeight_nonneg (w : ℕ → ℝ) (hw : ∀ n, 0 ≤ w n) :
    ∀ ts : List Token, 0 ≤ totalWeight w ts := by
  intro ts
  refine List.sum_nonneg ?_
  intro x hx
  rcases List.mem_map.mp hx with ⟨cs, _, rfl⟩
  exact hw _

theorem totalWeight_pos (w : ℕ → ℝ) (hw0 : ∀ n, 0 ≤ w n)
    (hw1 : ∀ n, 0 < n → 0 < w n) (ts : List Token) (cs : List Char)
    (hmem : Token.word cs ∈ ts) (hne : cs ≠ []) : 0 < totalWeight w ts := by
  have hx : w cs.length ∈ (wordTexts ts).map fun cs => w cs.length :=
    List.mem_map.mpr ⟨cs, mem_wordTexts_of_mem ts cs hmem, rfl⟩
  have hle := List.single_le_sum (l := (wordTexts ts).map fun cs => w cs.length)
    (fun x hx => by rcases List.mem_map.mp hx with ⟨cs', _, rfl⟩; exact hw0 _) _ hx
  have hpos : 0 < w cs.length := hw1 _ (List.length_pos.mpr hne)
  exact lt_of_lt_of_le hpos hle

theorem totalWeight_eq_zero_of_no_word (w : ℕ → ℝ) :
    ∀ ts : List Token, (∀ cs, Token.word cs ∉ ts) → totalWeight w ts = 0 := by
  intro ts
  induction ts with
  | nil => intro _; simp [totalWeight, wordTexts]
  | cons t ts ih =>
    intro h
    cases t with
    | word cs => exact absurd (List.mem_cons_self _ _) (h cs)
    | comma =>
      simp only [totalWeight, wordTexts]
      exact ih fun cs hcs => h cs (List.mem_cons_of_mem _ hcs)
    | sentenceEnd =>
      simp only [totalWeight, wordTexts]
      exact ih fun cs hcs => h cs (List.mem_cons_of_mem _ hcs)

theorem emit_snd_eq (w : ℕ → ℝ) (avail tw : ℝ) :
    ∀ (ts : List Token) (cur : ℝ),
      (emit w avail tw cur ts).2 =
        cur + pauseTime ts + (if 0 < tw then avail * totalWeight w ts / tw else 0) := by
  intro ts
  induction ts with
  | nil =>
    intro cur
    simp only [emit, pauseTime, totalWeight, wordTexts, List.map_nil, List.sum_nil]
    split_ifs <;> simp
  | cons t ts ih =>
    intro cur
    cases t with
    | comma =>
      simp only [emit, pauseTime]
      rw [ih]
      have : totalWeight w (Token.comma :: ts) = totalWeight w ts := by
        simp [totalWeight, wordTexts]
      rw [this]; ring
    | sentenceEnd =>
      simp only [emit, pauseTime]
      rw [ih]
      have : totalWeight w (Token.sentenceEnd :: ts) = totalWeight w ts := by
        simp [totalWeight, wordTexts]
      rw [this]; ring
    | word cs =>
      simp only [emit, pauseTime]
      rw [ih]
      have : totalWeight w (Token.word cs :: ts) = w cs.length + totalWeight w ts := by
        simp [totalWeight, wordTexts]
      rw [this]
      split_ifs with h
      · ring
      · ring

theorem emit_spans_sum (w : ℕ → ℝ) (avail tw : ℝ) :
    ∀ (ts : List Token) (cur : ℝ),
      (((emit w avail tw cur ts).1).map fun c : Cue => c.2.1 - c.1).sum =
        (emit w avail tw cur ts).2 - cur := by
  intro ts
  induction ts with
  | nil => intro cur; simp [emit]
  | cons t ts ih =>
    intro cur
    cases t <;> simp only [emit, List.map_cons, List.sum_cons] <;> rw [ih] <;> ring

theorem emit_cur_le_snd (w : ℕ → ℝ) (avail tw : ℝ) (hw : ∀ n, 0 ≤ w n)
    (ha : 0 ≤ avail) :
    ∀ (ts : List Token) (cur : ℝ), cur ≤ (emit w avail tw cur ts).2 := by
  intro ts
  induction ts with
  | nil => intro cur; simp [emit]
  | cons t ts ih =>
    intro cur
    cases t with
    | comma =>
      have h := ih (cur + COMMA_PAUSE)
      simp only [emit]
      have : (0 : ℝ) ≤ COMMA_PAUSE := by norm_num [COMMA_PAUSE]
      linarith
    | sentenceEnd =>
      have h := ih (cur + SENTENCE_END_PAUSE)
      simp only [emit]
      have : (0 : ℝ) ≤ SENTENCE_END_PAUSE := by norm_num [SENTENCE_END_PAUSE]
      linarith
    | word cs =>
      have hd : 0 ≤ (if 0 < tw then avail * w cs.length / tw else 0) := by
        split_ifs with h
        · exact div_nonneg (mul_nonneg ha (hw _)) h.le
        · exact le_refl 0
      have h := ih (cur + if 0 < tw then avail * w cs.length / tw else 0)
      simp only [emit]
      linarith

theorem emit_mem_bounds (w : ℕ → ℝ) (avail tw : ℝ) (hw : ∀ n, 0 ≤ w n)
    (ha : 0 ≤ avail) :
    ∀ (ts : List Token) (cur : ℝ), ∀ c ∈ (emit w avail tw cur ts).1,
      cur ≤ c.1 ∧ c.1 ≤ c.2.1 ∧ c.2.1 ≤ (emit w avail tw cur ts).2 := by
  intro ts
  induction ts with
  | nil => intro cur c hc; simp [emit] at hc
  | cons t ts ih =>
    intro cur c hc
    have hcp : (0 : ℝ) ≤ COMMA_PAUSE := by norm_num [COMMA_PAUSE]
    have hsp : (0 : ℝ) ≤ SENTENCE_END_PAUSE := by norm_num [SENTENCE_END_PAUSE]
    cases t with
    | comma =>
      simp only [emit, List.mem_cons] at hc
      rcases hc with rfl | hmem
      · refine ⟨le_refl _, by simpa using hcp, ?_⟩
        simpa [emit] using emit_cur_le_snd w avail tw hw ha ts (cur + COMMA_PAUSE)
      · have h := ih (cur + COMMA_PAUSE) c hmem
        exact ⟨by linarith [h.1], h.2.1, by simpa [emit] using h.2.2⟩
    | sentenceEnd =>
      simp only [emit, List.mem_cons] at hc
      rcases hc with rfl | hmem
      · refine ⟨le_refl _, by simpa using hsp, ?_⟩
        simpa [emit] using emit_cur_le_snd w avail tw hw ha ts (cur + SENTENCE_END_PAUSE)
      · have h := ih (cur + SENTENCE_END_PAUSE) c hmem
        exact ⟨by linarith [h.1], h.2.1, by simpa [emit] using h.2.2⟩
    | word cs =>
      have hd : 0 ≤ (if 0 < tw then avail * w cs.length / tw else 0) := by
        split_ifs with h
        · exact div_nonneg (mul_nonneg ha (hw _)) h.le
        · exact le_refl 0
      simp only [emit, List.mem_cons] at hc
      rcases hc with rfl | hmem
      · refine ⟨le_refl _, by simpa using hd, ?_⟩
        simpa [emit] using emit_cur_le_snd w avail tw hw ha ts
          (cur + if 0 < tw then avail * w cs.length / tw else 0)
      · have h := ih (cur + if 0 < tw then avail * w cs.length / tw else 0) c hmem
        exact ⟨by linarith [h.1], h.2.1, by simpa [emit] using h.2.2⟩

theorem emit_chain (w : ℕ → ℝ) (avail tw : ℝ) (hw : ∀ n, 0 ≤ w n) (ha : 0 ≤ avail) :
    ∀ (ts : List Token) (cur : ℝ),
      List.Chain' (fun a b : Cue => a.1 ≤ b.1) (emit w avail tw cur ts).1 := by
  intro ts
  induction ts with
  | nil => intro cur; simp [emit]
  | cons t ts ih =>
    intro cur
    have hcp : (0 : ℝ) ≤ COMMA_PAUSE := by norm_num [COMMA_PAUSE]
    have hsp : (0 : ℝ) ≤ SENTENCE_END_PAUSE := by norm_num [SENTENCE_END_PAUSE]
    cases t with
    | comma =>
      simp only [emit]
      refine List.chain'_cons'.mpr ⟨?_, ih (cur + COMMA_PAUSE)⟩
      intro b hb
      have hbm := List.mem_of_mem_head? hb
      have h := emit_mem_bounds w avail tw hw ha ts (cur + COMMA_PAUSE) b hbm
      simp only []
      linarith [h.1]
    | sentenceEnd =>
      simp only [emit]
      refine List.chain'_cons'.mpr ⟨?_, ih (cur + SENTENCE_END_PAUSE)⟩
      intro b hb
      have hbm := List.mem_of_mem_head? hb
      have h := emit_mem_bounds w avail tw hw ha ts (cur + SENTENCE_END_PAUSE) b hbm
      simp only []
      linarith [h.1]
    | word cs =>
      have hd : 0 ≤ (if 0 < tw then avail * w cs.length / tw else 0) := by
        split_ifs with h
        · exact div_nonneg (mul_nonneg ha (hw _)) h.le
        · exact le_refl 0
      simp only [emit]
      refine List.chain'_cons'.mpr
        ⟨?_, ih (cur + if 0 < tw then avail * w cs.length / tw else 0)⟩
      intro b hb
      have hbm := List.mem_of_mem_head? hb
      have h := emit_mem_bounds w avail tw hw ha ts
        (cur + if 0 < tw then avail * w cs.length / tw else 0) b hbm
      linarith [h.1]

theorem segEntries_snd (w : ℕ → ℝ) (cum : ℝ) (s : SegIn) :
    (segEntries w cum s).2 = cum + s.dur := by
  simp only [segEntries]
  split_ifs <;> ring

theorem segEntries_fin_le (w : ℕ → ℝ) (hw0 : ∀ n, 0 ≤ w n)
    (hw1 : ∀ n, 0 < n → 0 < w n) (cum : ℝ) (s : SegIn) (hok : SegOK s)
    (htok : ¬ tokenize s.text.toList = []) :
    (emit w (max (s.dur - s.leading - pauseTime (tokenize s.text.toList)) 0)
        (totalWeight w (tokenize s.text.toList)) (cum + s.leading)
        (tokenize s.text.toList)).2 ≤ cum + s.dur := by
  obtain ⟨hl0, _, hfit⟩ := hok
  have hfit := hfit htok
  set toks := tokenize s.text.toList with htoks
  have hp0 := pauseTime_nonneg toks
  have hmax : max (s.dur - s.leading - pauseTime toks) 0 =
      s.dur - s.leading - pauseTime toks := max_eq_left (by linarith)
  rw [emit_snd_eq]
  by_cases hword : ∃ cs, Token.word cs ∈ toks
  · obtain ⟨cs, hcs⟩ := hword
    have htw : 0 < totalWeight w toks :=
      totalWeight_pos w hw0 hw1 toks cs hcs (tokenize_word_ne_nil _ _ hcs)
    rw [if_pos htw, mul_div_assoc, div_self htw.ne', mul_one, hmax]
    linarith
  · push_neg at hword
    have htw : totalWeight w toks = 0 := totalWeight_eq_zero_of_no_word w toks hword
    rw [htw, if_neg (lt_irrefl 0)]
    linarith

theorem segEntries_bounds (w : ℕ → ℝ) (hw0 : ∀ n, 0 ≤ w n)
    (hw1 : ∀ n, 0 < n → 0 < w n) (cum : ℝ) (s : SegIn) (hok : SegOK s) :
    (∀ c ∈ (segEntries w cum s).1, cum ≤ c.1 ∧ c.1 ≤ c.2.1 ∧ c.2.1 ≤ cum + s.dur) ∧
      List.Chain' (fun a b : Cue => a.1 ≤ b.1) (segEntries w cum s).1 := by
  obtain ⟨hl0, hempty, hfit⟩ := hok
  by_cases htok : tokenize s.text.toList = []
  · simp only [segEntries, if_pos htok]
    constructor
    · intro c hc
      simp only [List.mem_singleton] at hc
      subst hc
      have hld := hempty htok
      refine ⟨by simp only []; linarith, by simp only []; linarith, by simp only []; linarith⟩
    · simp
  · simp only [segEntries, if_neg htok]
    have ha : (0 : ℝ) ≤ max (s.dur - s.leading - pauseTime (tokenize s.text.toList)) 0 :=
      le_max_right _ _
    have hfin := segEntries_fin_le w hw0 hw1 cum s ⟨hl0, hempty, hfit⟩ htok
    constructor
    · intro c hc
      have h := emit_mem_bounds w _ _ hw0 ha _ _ c hc
      exact ⟨by linarith [h.1], h.2.1, le_trans h.2.2 hfin⟩
    · exact emit_chain w _ _ hw0 ha _ _

theorem segOK_dur_nonneg (s : SegIn) (hok : SegOK s) : 0 ≤ s.dur := by
  obtain ⟨hl0, hempty, hfit⟩ := hok
  by_cases htok : tokenize s.text.toList = []
  · linarith [hempty htok]
  · linarith [hfit htok, pauseTime_nonneg (tokenize s.text.toList)]

theorem buildFrom_bounds (w : ℕ → ℝ) (hw0 : ∀ n, 0 ≤ w n)
    (hw1 : ∀ n, 0 < n → 0 < w n) :
    ∀ (segs : List SegIn), (∀ s ∈ segs, SegOK s) → ∀ cum : ℝ,
      (∀ c ∈ buildFrom w cum segs, cum ≤ c.1 ∧ c.1 ≤ c.2.1) ∧
        List.Chain' (fun a b : Cue => a.1 ≤ b.1) (buildFrom w cum segs) := by
  intro segs
  induction segs with
  | nil => intro _ cum; simp [buildFrom]
  | cons s rest ih =>
    intro hok cum
    have hs := hok s (List.mem_cons_self s rest)
    have hrest := fun s' hs' => hok s' (List.mem_cons_of_mem s hs')
    have hdur0 := segOK_dur_nonneg s hs
    have hseg := segEntries_bounds w hw0 hw1 cum s hs
    have hsnd := segEntries_snd w cum s
    have ihr := ih hrest (cum + s.dur)
    simp only [buildFrom]
    rw [hsnd]
    constructor
    · intro c hc
      rcases List.mem_append.mp hc with h1 | h2
      · exact ⟨(hseg.1 c h1).1, (hseg.1 c h1).2.1⟩
      · have h := ihr.1 c h2
        exact ⟨by linarith [h.1], h.2⟩
    · rw [List.chain'_append]
      refine ⟨hseg.2, ihr.2, ?_⟩
      intro x hx y hy
      have hxb := hseg.1 x (List.mem_of_mem_getLast? hx)
      have hyb := ihr.1 y (List.mem_of_mem_head? hy)
      linarith [hxb.2.1, hxb.2.2, hyb.1]

theorem runClock_eq (w : ℕ → ℝ) :
    ∀ (segs : List SegIn) (cum : ℝ),
      runClock w cum segs = cum + ((segs.map SegIn.dur).sum) := by
  intro segs
  induction segs with
  | nil => intro cum; simp [runClock]
  | cons s rest ih =>
    intro cum
    simp only [runClock, List.map_cons, List.sum_cons]
    rw [segEntries_snd, ih]
    ring

theorem runClock_take_succ (w : ℕ → ℝ) :
    ∀ (segs : List SegIn) (k : ℕ) (hk : k < segs.length) (cum : ℝ),
      runClock w cum (segs.take (k + 1)) =
        runClock w cum (segs.take k) + (segs.get ⟨k, hk⟩).dur := by
  intro segs
  induction segs with
  | nil => intro k hk; simp at hk
  | cons s rest ih =>
    intro k hk cum
    cases k with
    | zero =>
      simp only [List.take_succ_cons, List.take_zero, List.get]
      simp only [runClock]
      rw [segEntries_snd]
    | succ k =>
      have hk' : k < rest.length := by simpa using Nat.lt_of_succ_lt_succ hk
      simp only [List.take_succ_cons, List.get]
      simp only [runClock]
      exact ih k hk' _

/-! ## Claim C8 -/

/-- Claim C8: for every segment the new cumulative clock equals the old value
plus the segment's total duration, independent of leading silence and token
content (both branches of the loop set `cumulative_seconds` to
`start + (dur - leading) = cum + dur`); consequently the clock after any run
is the initial clock plus the sum of the segment durations. -/
theorem cumulative_clock_advance :
    (∀ (w : ℕ → ℝ) (cum : ℝ) (s : SegIn), (segEntries w cum s).2 = cum + s.dur) ∧
      (∀ (w : ℕ → ℝ) (cum : ℝ) (segs : List SegIn),
        runClock w cum segs = cum + ((segs.map SegIn.dur).sum)) :=
  ⟨segEntries_snd, fun w cum segs => runClock_eq w segs cum⟩

/-! ## Claim C1 -/

/-- Claim C1 (amended): provided every segment has nonnegative leading
silence that, together with the fixed pause budget of its tokens, fits inside
its duration (and, for token-free segments, leading silence at most the
duration), the emitted document satisfies `end >= start` for every cue, cue
start times are non-decreasing in emission order, and no cue of segment `k`
extends past segment `k+1`'s segment start (clock after `k` plus
segment `k+1`'s leading silence). -/
theorem build_srt_entries_invariants (segs : List SegIn)
    (hok : ∀ s ∈ segs, SegOK s) :
    (∀ c ∈ build_srt_entries segs, c.1 ≤ c.2.1) ∧
      List.Chain' (fun a b : Cue => a.1 ≤ b.1) (build_srt_entries segs) ∧
      (∀ (k : ℕ) (hk : k + 1 < segs.length),
        ∀ c ∈ (segEntries alphaWeight (runClock alphaWeight 0 (segs.take k))
            (segs.get ⟨k, by omega⟩)).1,
          c.2.1 ≤ runClock alphaWeight 0 (segs.take (k + 1)) +
            (segs.get ⟨k + 1, hk⟩).leading) := by
  have hw0 : ∀ n, 0 ≤ alphaWeight n := fun n => Real.rpow_nonneg (by positivity) _
  have hw1 : ∀ n, 0 < n → 0 < alphaWeight n := fun n hn =>
    Real.rpow_pos_of_pos (by exact_mod_cast hn) _
  refine ⟨?_, ?_, ?_⟩
  · intro c hc
    exact ((buildFrom_bounds alphaWeight hw0 hw1 segs hok 0).1 c hc).2
  · exact (buildFrom_bounds alphaWeight hw0 hw1 segs hok 0).2
  · intro k hk c hc
    have hkk : k < segs.length := by omega
    have hsegok := hok _ (segs.get_mem k hkk)
    have hb := (segEntries_bounds alphaWeight hw0 hw1
      (runClock alphaWeight 0 (segs.take k)) _ hsegok).1 c hc
    have hnext := hok _ (segs.get_mem (k + 1) hk)
    have hstep := runClock_take_succ alphaWeight segs k hkk 0
    have hlead := hnext.1
    linarith [hb.2.2]

/-- Witness for C1 (amended) at a concrete two-segment input. -/
theorem build_srt_entries_invariants_witness :
    (∀ s ∈ [SegIn.mk 1 0 "a", SegIn.mk 1 0 "b"], SegOK s) ∧
      (∀ c ∈ build_srt_entries [SegIn.mk 1 0 "a", SegIn.mk 1 0 "b"], c.1 ≤ c.2.1) ∧
      List.Chain' (fun a b : Cue => a.1 ≤ b.1)
        (build_srt_entries [SegIn.mk 1 0 "a", SegIn.mk 1 0 "b"]) := by
  have ha : tokenize (String.toList "a") = [Token.word ['a']] := by decide
  have hb : tokenize (String.toList "b") = [Token.word ['b']] := by decide
  have hok : ∀ s ∈ [SegIn.mk 1 0 "a", SegIn.mk 1 0 "b"], SegOK s := by
    intro s hs
    simp only [List.mem_cons, List.mem_singleton, List.not_mem_nil, or_false] at hs
    rcases hs with rfl | rfl
    · refine ⟨le_refl 0, fun h => ?_, fun _ => ?_⟩
      · rw [show (SegIn.mk 1 0 "a").text.toList = String.toList "a" from rfl, ha] at h
        cases h
      · rw [show (SegIn.mk 1 0 "a").text.toList = String.toList "a" from rfl, ha]
        simp only [pauseTime]
        norm_num
    · refine ⟨le_refl 0, fun h => ?_, fun _ => ?_⟩
      · rw [show (SegIn.mk 1 0 "b").text.toList = String.toList "b" from rfl, hb] at h
        cases h
      · rw [show (SegIn.mk 1 0 "b").text.toList = String.toList "b" from rfl, hb]
        simp only [pauseTime]
        norm_num
  exact ⟨hok, (build_srt_entries_invariants _ hok).1,
    (build_srt_entries_invariants _ hok).2.1⟩

/-- Claim C1 (counterexample): a 0.1 s segment whose text is `".."` owes
0.8 s of fixed pause time, so its pause cues run past the segment: the
document is `[(0, 0.4, " "), (0.4, 0.8, " "), (0.1, 1.1, "a")]` and cue
starts are not non-decreasing (0.4 > 0.1), the second cue crossing into the
next segment's start 0.1. -/
theorem build_srt_entries_crossing_counterexample :
    build_srt_entries [SegIn.mk 0.1 0 "..", SegIn.mk 1 0 "a"] =
        [(0, 0.4, " "), (0.4, 0.8, " "), (0.1, 1.1, "a")] ∧
      ¬ List.Chain' (fun a b : Cue => a.1 ≤ b.1)
        (build_srt_entries [SegIn.mk 0.1 0 "..", SegIn.mk 1 0 "a"]) := by
  have h1 : tokenize (String.toList "..") = [Token.sentenceEnd, Token.sentenceEnd] := by
    decide
  have h2 : tokenize (String.toList "a") = [Token.word ['a']] := by decide
  have hstr : String.mk ['a'] = "a" := by decide
  have hne : ([Token.sentenceEnd, Token.sentenceEnd] : List Token) ≠ [] := by decide
  have hlist : build_srt_entries [SegIn.mk 0.1 0 "..", SegIn.mk 1 0 "a"] =
      [(0, 0.4, " "), (0.4, 0.8, " "), (0.1, 1.1, "a")] := by
    simp only [build_srt_entries, buildFrom, segEntries, h1, h2]
    norm_num [emit, pauseTime, totalWeight, wordTexts, COMMA_PAUSE, SENTENCE_END_PAUSE,
      alphaWeight, hstr, Real.one_rpow, hne]
  refine ⟨hlist, ?_⟩
  rw [hlist]
  intro hch
  rcases hch with _ | ⟨_, hch⟩
  rcases hch with _ | ⟨hle, _⟩
  norm_num at hle

/-! ## Claim C2 -/

/-- Claim C2 (amended): for every segment containing at least one word token
and whose leading silence plus fixed pause time fits inside its duration, the
sum of `end - start` over the segment's emitted cues alone equals
`totalDuration - leadingSilence` exactly — the pause cues themselves carry
the pause time, so it is not added again (and the 1 ms tolerance holds a
fortiori). -/
theorem segment_span_coverage_amended (s : SegIn) (cum : ℝ)
    (hword : ∃ cs, Token.word cs ∈ tokenize s.text.toList)
    (hfit : s.leading + pauseTime (tokenize s.text.toList) ≤ s.dur) :
    ((((segEntries alphaWeight cum s).1).map fun c : Cue => c.2.1 - c.1).sum =
        s.dur - s.leading) ∧
      abs ((((segEntries alphaWeight cum s).1).map fun c : Cue => c.2.1 - c.1).sum -
          (s.dur - s.leading)) ≤ 1 / 1000 := by
  obtain ⟨cs, hcs⟩ := hword
  have htok : tokenize s.text.toList ≠ [] := by
    intro h
    rw [h] at hcs
    simp at hcs
  have hw0 : ∀ n, 0 ≤ alphaWeight n := fun n => Real.rpow_nonneg (by positivity) _
  have hw1 : ∀ n, 0 < n → 0 < alphaWeight n := fun n hn =>
    Real.rpow_pos_of_pos (by exact_mod_cast hn) _
  have htw : 0 < totalWeight alphaWeight (tokenize s.text.toList) :=
    totalWeight_pos alphaWeight hw0 hw1 _ cs hcs (tokenize_word_ne_nil _ _ hcs)
  have hp0 := pauseTime_nonneg (tokenize s.text.toList)
  have hmax : max (s.dur - s.leading - pauseTime (tokenize s.text.toList)) 0 =
      s.dur - s.leading - pauseTime (tokenize s.text.toList) := max_eq_left (by linarith)
  have hsum : (((segEntries alphaWeight cum s).1).map fun c : Cue => c.2.1 - c.1).sum =
      s.dur - s.leading := by
    simp only [segEntries, if_neg htok]
    rw [emit_spans_sum, emit_snd_eq, if_pos htw, mul_div_assoc, div_self htw.ne',
      mul_one, hmax]
    ring
  exact ⟨hsum, by rw [hsum]; norm_num⟩

/-- Witness for C2 (amended) at a concrete one-word segment. -/
theorem segment_span_coverage_witness :
    (∃ cs, Token.word cs ∈ tokenize (SegIn.mk 1 0 "a").text.toList) ∧
      (((segEntries alphaWeight 0 (SegIn.mk 1 0 "a")).1).map
          fun c : Cue => c.2.1 - c.1).sum =
        (SegIn.mk 1 0 "a").dur - (SegIn.mk 1 0 "a").leading := by
  have h1 : tokenize (String.toList "a") = [Token.word ['a']] := by decide
  have hword : ∃ cs, Token.word cs ∈ tokenize (SegIn.mk 1 0 "a").text.toList :=
    ⟨['a'], by decide⟩
  have hfit : (SegIn.mk 1 0 "a").leading +
      pauseTime (tokenize (SegIn.mk 1 0 "a").text.toList) ≤ (SegIn.mk 1 0 "a").dur := by
    show (0 : ℝ) + pauseTime (tokenize (String.toList "a")) ≤ 1
    rw [h1]
    simp only [pauseTime]
    norm_num
  exact ⟨hword, (segment_span_coverage_amended (SegIn.mk 1 0 "a") 0 hword hfit).1⟩

/-- Claim C2 (counterexample): for the segment (dur 2 s, no leading silence,
text `"a,"`) the cues are `[(0, 1.8, "a"), (1.8, 2.0, " ")]`: their spans sum
to 2.0 s already, so adding the 0.2 s pause time again misses
`totalDuration - leadingSilence` by 0.2 s, far beyond 1 ms. -/
theorem segment_span_coverage_counterexample :
    ¬ (abs ((((segEntries alphaWeight 0 (SegIn.mk 2 0 "a,")).1).map
          (fun c : Cue => c.2.1 - c.1)).sum +
        pauseTime (tokenize (String.toList "a,")) - (2 - 0)) ≤ 1 / 1000) := by
  have h1 : tokenize (String.toList "a,") = [Token.word ['a'], Token.comma] := by decide
  have hne : ([Token.word ['a'], Token.comma] : List Token) ≠ [] := by decide
  simp only [segEntries, h1]
  norm_num [emit, pauseTime, totalWeight, wordTexts, COMMA_PAUSE, SENTENCE_END_PAUSE,
    alphaWeight, Real.one_rpow, hne]
  rw [abs_of_nonneg (by norm_num : (0 : ℝ) ≤ 1 / 5)]
  norm_num

/-! ## Claim C7 -/

theorem segEntries_sqrt_example :
    (segEntries sqrtWeight 0 (SegIn.mk 3 0 "a elephant")).1 =
      [(0, 3 / (1 + Real.sqrt 8), "a"),
        (3 / (1 + Real.sqrt 8),
          3 / (1 + Real.sqrt 8) + 3 * Real.sqrt 8 / (1 + Real.sqrt 8), "elephant")] := by
  have h1 : tokenize (String.toList "a elephant") =
      [Token.word ['a'], Token.word (String.toList "elephant")] := by decide
  have hne : ([Token.word ['a'], Token.word (String.toList "elephant")] : List Token) ≠ [] := by
    decide
  have hw1 : sqrtWeight 1 = 1 := by rw [sqrtWeight]; norm_num [Real.one_rpow]
  have hw8 : sqrtWeight 8 = Real.sqrt 8 := by
    have h05 : (0.5 : ℝ) = 1 / 2 := by norm_num
    rw [sqrtWeight, h05, ← Real.sqrt_eq_rpow]
    norm_num
  have hlen : (String.toList "elephant").length = 8 := by decide
  have hs0 : 0 ≤ Real.sqrt 8 := Real.sqrt_nonneg 8
  have htw : (0 : ℝ) < 1 + Real.sqrt 8 := by linarith
  have hstra : String.mk ['a'] = "a" := by decide
  have hstre : String.mk (String.toList "elephant") = "elephant" := by decide
  simp only [segEntries, h1]
  rw [if_neg hne]
  simp only [emit, pauseTime, totalWeight, wordTexts, List.map_cons, List.map_nil,
    List.sum_cons, List.sum_nil, List.length_cons, List.length_nil, hlen, hw1, hw8,
    hstra, hstre]
  norm_num [htw, max_eq_left, hs0]

theorem sqrt8_bounds : 2.828 < Real.sqrt 8 ∧ Real.sqrt 8 < 2.8285 := by
  have hs := Real.sq_sqrt (by norm_num : (0 : ℝ) ≤ 8)
  have hs0 := Real.sqrt_nonneg 8
  constructor
  · nlinarith [hs, hs0]
  · nlinarith [hs, hs0]

/-- Claim C7 (amended): with exponent 0.5 on tokens `[Word "a",
Word "elephant"]`, duration 3 s, no pauses and no leading silence, the
weights are `1` and `√8 = 8^0.5 ≈ 2.828`, the two cue durations are
`3/(1+√8)` and `3·√8/(1+√8)` — splitting 3 s exactly in ratio `1 : √8` and
summing to 3 s — with approximate values 0.784 s and 2.216 s (not the
0.796 s / 2.204 s printed in the spec). -/
theorem allocate_sqrt_example_amended :
    ((segEntries sqrtWeight 0 (SegIn.mk 3 0 "a elephant")).1 =
        [(0, 3 / (1 + Real.sqrt 8), "a"),
          (3 / (1 + Real.sqrt 8),
            3 / (1 + Real.sqrt 8) + 3 * Real.sqrt 8 / (1 + Real.sqrt 8), "elephant")]) ∧
      sqrtWeight 1 = 1 ∧ sqrtWeight 8 = Real.sqrt 8 ∧
      abs (Real.sqrt 8 - 2.828) < 1 / 1000 ∧
      3 * Real.sqrt 8 / (1 + Real.sqrt 8) = (3 / (1 + Real.sqrt 8)) * Real.sqrt 8 ∧
      3 / (1 + Real.sqrt 8) + 3 * Real.sqrt 8 / (1 + Real.sqrt 8) = 3 ∧
      abs (3 / (1 + Real.sqrt 8) - 0.784) < 1 / 1000 ∧
      abs (3 * Real.sqrt 8 / (1 + Real.sqrt 8) - 2.216) < 1 / 1000 := by
  have h1 := sqrt8_bounds.1
  have h2 := sqrt8_bounds.2
  have hs0 := Real.sqrt_nonneg 8
  have hpos : (0 : ℝ) < 1 + Real.sqrt 8 := by linarith
  have ht : (3 / (1 + Real.sqrt 8)) * (1 + Real.sqrt 8) = 3 := by field_simp
  have ht2 : (3 * Real.sqrt 8 / (1 + Real.sqrt 8)) * (1 + Real.sqrt 8) =
      3 * Real.sqrt 8 := by field_simp
  have htpos : 0 < 3 / (1 + Real.sqrt 8) := by positivity
  have ht2pos : 0 ≤ 3 * Real.sqrt 8 / (1 + Real.sqrt 8) := by positivity
  refine ⟨segEntries_sqrt_example, ?_, ?_, ?_, ?_, ?_, ?_, ?_⟩
  · rw [sqrtWeight]; norm_num [Real.one_rpow]
  · have h05 : (0.5 : ℝ) = 1 / 2 := by norm_num
    rw [sqrtWeight, h05, ← Real.sqrt_eq_rpow]
    norm_num
  · rw [abs_lt]
    constructor <;> nlinarith [h1, h2]
  · ring
  · field_simp
    ring
  · rw [abs_lt]
    constructor <;> nlinarith [ht, h1, h2, htpos]
  · rw [abs_lt]
    constructor <;> nlinarith [ht2, h1, h2, ht2pos]

/-- Claim C7 (counterexample): the first cue's duration is `3/(1+√8)`,
which differs from the claimed `≈ 0.796 s` by more than 0.01 s (its true
value is ≈ 0.7836 s): the spec's printed figures are wrong at the displayed
precision. -/
theorem allocate_sqrt_example_counterexample :
    ((segEntries sqrtWeight 0 (SegIn.mk 3 0 "a elephant")).1.map
        fun c : Cue => c.2.1 - c.1) =
        [3 / (1 + Real.sqrt 8), 3 * Real.sqrt 8 / (1 + Real.sqrt 8)] ∧
      1 / 100 ≤ abs (3 / (1 + Real.sqrt 8) - 0.796) := by
  constructor
  · rw [segEntries_sqrt_example]
    simp only [List.map_cons, List.map_nil]
    norm_num
  · have h1 := sqrt8_bounds.1
    have h2 := sqrt8_bounds.2
    have hs0 := Real.sqrt_nonneg 8
    have hpos : (0 : ℝ) < 1 + Real.sqrt 8 := by linarith
    have ht : (3 / (1 + Real.sqrt 8)) * (1 + Real.sqrt 8) = 3 := by field_simp
    have htpos : 0 < 3 / (1 + Real.sqrt 8) := by positivity
    rw [le_abs]
    right
    nlinarith [ht, h1, h2, htpos]

/-! ## Claim C3 -/

theorem mainEmit_words_only (avail tw : ℝ) :
    ∀ (ts : List Token) (cur : ℝ),
      ((mainEmit avail tw cur ts).1).map (fun c : Cue => c.2.2) =
        ts.filterMap wordTextOpt := by
  intro ts
  induction ts with
  | nil => intro cur; simp [mainEmit, List.filterMap_nil]
  | cons t ts ih =>
    intro cur
    cases t with
    | comma => simp only [mainEmit, List.filterMap_cons, wordTextOpt]; exact ih _
    | sentenceEnd => simp only [mainEmit, List.filterMap_cons, wordTextOpt]; exact ih _
    | word cs =>
      simp only [mainEmit, List.filterMap_cons, wordTextOpt, List.map_cons]
      rw [ih]

/-- Claim C3: in the default-policy allocator (the inline main.rs variant)
only Word tokens emit cues — the sequence of cue texts is exactly the
sequence of word texts — while a Comma advances the cursor by 0.2 s and a
SentenceEnd by 0.4 s without contributing any cue. (The unused subtitle.rs
variant instead emits a blank marker cue per pause; the spec documents that
variant as the non-default alternative.) -/
theorem main_allocator_pause_policy :
    (∀ (cum dur : ℝ) (text : String), tokenize text.toList ≠ [] →
        ((mainSegEntries cum dur text).1).map (fun c : Cue => c.2.2) =
          (tokenize text.toList).filterMap wordTextOpt) ∧
      (∀ (avail tw cur : ℝ) (ts : List Token),
        mainEmit avail tw cur (Token.comma :: ts) =
          mainEmit avail tw (cur + COMMA_PAUSE) ts) ∧
      (∀ (avail tw cur : ℝ) (ts : List Token),
        mainEmit avail tw cur (Token.sentenceEnd :: ts) =
          mainEmit avail tw (cur + SENTENCE_END_PAUSE) ts) := by
  refine ⟨?_, fun _ _ _ _ => by simp [mainEmit], fun _ _ _ _ => by simp [mainEmit]⟩
  intro cum dur text hne
  simp only [mainSegEntries, if_neg hne]
  exact mainEmit_words_only _ _ _ _

/-- Witness for C3 at a concrete word-plus-comma segment. -/
theorem main_allocator_pause_policy_witness :
    tokenize (String.toList "a,") ≠ [] ∧
      ((mainSegEntries 0 1 "a,").1).map (fun c : Cue => c.2.2) =
        (tokenize (String.toList "a,")).filterMap wordTextOpt :=
  ⟨by decide, main_allocator_pause_policy.1 0 1 "a," (by decide)⟩

/-! ## Claim C9 -/

theorem buildFromE_ok (w : ℕ → ℝ) :
    ∀ (segs : List SegRead) (cum : ℝ),
      (buildFromE w cum segs = none ↔ ∃ s ∈ segs, s.durRes = none) ∧
        ((∀ s ∈ segs, s.durRes ≠ none) →
          buildFromE w cum segs = some (buildFrom w cum (segs.map toSegIn))) := by
  intro segs
  induction segs with
  | nil =>
    intro cum
    constructor
    · simp [buildFromE]
    · intro _; simp [buildFromE, buildFrom]
  | cons s rest ih =>
    intro cum
    cases hd : s.durRes with
    | none =>
      constructor
      · simp only [buildFromE, hd]
        exact iff_of_true trivial ⟨s, List.mem_cons_self s rest, hd⟩
      · intro hall
        exact absurd hd (hall s (List.mem_cons_self s rest))
    | some dur =>
      constructor
      · simp only [buildFromE, hd, Option.map_eq_none']
        rw [(ih _).1]
        constructor
        · rintro ⟨s', hs', hd'⟩
          exact ⟨s', List.mem_cons_of_mem s hs', hd'⟩
        · rintro ⟨s', hs', hd'⟩
          rcases List.mem_cons.mp hs' with rfl | hmem
          · rw [hd] at hd'; cases hd'
          · exact ⟨s', hmem, hd'⟩
      · intro hall
        have hrest := fun s' hs' => hall s' (List.mem_cons_of_mem s hs')
        simp only [buildFromE, hd]
        rw [((ih _).2 hrest)]
        simp only [Option.map_some', Option.some.injEq]
        simp only [List.map_cons, buildFrom, toSegIn, hd, Option.getD_some]

/-- Claim C9: the run fails (produces no cue list) exactly when some segment's
duration read fails — the `?` on `wav_duration_seconds` aborts the whole
call — while a failed leading-silence analysis is non-fatal: the segment is
processed with leading silence taken as 0 via `.unwrap_or(0.0)`. -/
theorem build_srt_entriesE_error_handling (segs : List SegRead) :
    (build_srt_entriesE segs = none ↔ ∃ s ∈ segs, s.durRes = none) ∧
      ((∀ s ∈ segs, s.durRes ≠ none) →
        build_srt_entriesE segs = some (build_srt_entries (segs.map toSegIn))) :=
  buildFromE_ok alphaWeight segs 0

/-- Witness for C9 at a segment whose silence read fails but duration read
succeeds. -/
theorem build_srt_entriesE_error_handling_witness :
    (∀ s ∈ [SegRead.mk (some 1) none "a"], s.durRes ≠ none) ∧
      build_srt_entriesE [SegRead.mk (some 1) none "a"] =
        some (build_srt_entries ([SegRead.mk (some 1) none "a"].map toSegIn)) :=
  ⟨by simp, (build_srt_entriesE_error_handling [SegRead.mk (some 1) none "a"]).2 (by simp)⟩

/-! ## Claim C10 -/

theorem emit_texts (w : ℕ → ℝ) (avail tw : ℝ) :
    ∀ (ts : List Token) (cur : ℝ),
      ((emit w avail tw cur ts).1).map (fun c : Cue => c.2.2) = ts.map tokenText := by
  intro ts
  induction ts with
  | nil => intro cur; simp [emit]
  | cons t ts ih =>
    intro cur
    cases t <;> simp only [emit, List.map_cons, tokenText] <;> rw [ih]

/-- Claim C10: in the subtitle.rs walk each token emits exactly one cue whose
text is the word's text for Word tokens and `" "` for both pause kinds;
word-wrapping `" "` yields no lines (`split_whitespace` drops it), so the SRT
block of any cue with text `" "` is just the index line, the timestamp line
and the blank separator — no text line at all. -/
theorem pause_cue_block_shape :
    (∀ (w : ℕ → ℝ) (avail tw cur : ℝ) (ts : List Token),
        ((emit w avail tw cur ts).1).map (fun c : Cue => c.2.2) = ts.map tokenText) ∧
      tokenText Token.comma = " " ∧ tokenText Token.sentenceEnd = " " ∧
      wrap_text " " 80 = [] ∧
      (∀ (i : ℕ) (c : Cue), c.2.2 = " " →
        srtBlock i c = [toString (i + 1),
          format_srt_time c.1 ++ " --> " ++ format_srt_time c.2.1, ""]) := by
  have hwrap : wrap_text " " 80 = [] := by decide
  refine ⟨fun w avail tw cur ts => emit_texts w avail tw ts cur, rfl, rfl, hwrap, ?_⟩
  intro i c hc
  simp [srtBlock, hc, hwrap]

/-- Witness for C10 at a concrete pause cue. -/
theorem pause_cue_block_shape_witness :
    ((0, 1, " ") : Cue).2.2 = " " ∧
      srtBlock 0 ((0, 1, " ") : Cue) = [toString (0 + 1),
        format_srt_time ((0, 1, " ") : Cue).1 ++ " --> " ++
          format_srt_time ((0, 1, " ") : Cue).2.1, ""] :=
  ⟨rfl, pause_cue_block_shape.2.2.2.2 0 (0, 1, " ") rfl⟩

end RedditStories
